import Mathlib

/-!
Verification development for the numerology engine of the UETNet platform
(`src/numerology_engine.py`).  The Python functions are shallowly embedded as
executable Lean definitions: dictionaries with a `.get(ch, 0)` default become
total functions `Char → Nat`, the dictionary returned by
`prime_factor_signature` becomes an association list in insertion order, and
the `while` loops become well-founded recursions.  The Python standard-library
calls `unicodedata.normalize('NFKD', ·)` and `unicodedata.combining` are
modelled from the Unicode character database on the code points exercised
here (all other code points are treated as NFKD-inert non-combining, which
they are for every character appearing in this development).
-/

/-- Embedding of `pythagorean_map`: the Python dict maps each of `A`-`Z`
(code points 65-90) and `a`-`z` (97-122) at 0-indexed alphabet position `i`
to `i % 9 + 1`; the `.get(ch, 0)` lookup used by `numerology_vector` returns
0 for every other character, which is folded into this total function. -/
def pythagorean_map (c : Char) : Nat :=
  if 65 ≤ c.toNat ∧ c.toNat ≤ 90 then (c.toNat - 65) % 9 + 1
  else if 97 ≤ c.toNat ∧ c.toNat ≤ 122 then (c.toNat - 97) % 9 + 1
  else 0

/-- Embedding of `hebrew_map`: the 22 basic Hebrew letters with their
gematria values, compared by code point (א=1488 … ת=1514, final forms
absent); every other character yields the `.get` default 0.
Values: א1 ב2 ג3 ד4 ה5 ו6 ז7 ח8 ט9 י10 כ20 ל30 מ40 נ50 ס60 ע70 פ80 צ90
ק100 ר200 ש300 ת400. -/
def hebrew_map (c : Char) : Nat :=
  if c.toNat = 1488 then 1
  else if c.toNat = 1489 then 2
  else if c.toNat = 1490 then 3
  else if c.toNat = 1491 then 4
  else if c.toNat = 1492 then 5
  else if c.toNat = 1493 then 6
  else if c.toNat = 1494 then 7
  else if c.toNat = 1495 then 8
  else if c.toNat = 1496 then 9
  else if c.toNat = 1497 then 10
  else if c.toNat = 1499 then 20
  else if c.toNat = 1500 then 30
  else if c.toNat = 1502 then 40
  else if c.toNat = 1504 then 50
  else if c.toNat = 1505 then 60
  else if c.toNat = 1506 then 70
  else if c.toNat = 1508 then 80
  else if c.toNat = 1510 then 90
  else if c.toNat = 1511 then 100
  else if c.toNat = 1512 then 200
  else if c.toNat = 1513 then 300
  else if c.toNat = 1514 then 400
  else 0

/-- Embedding of `greek_map`: the 25 lowercase/archaic Greek letterforms of
the source with their isopsephy values, compared by code point
(α=945 β=946 γ=947 δ=948 ε=949 ϛ=987 ζ=950 η=951 θ=952 ι=953 κ=954 λ=955
μ=956 ν=957 ξ=958 ο=959 π=960 ϙ=985 ρ=961 σ=963 τ=964 υ=965 φ=966 χ=967
ψ=968 ω=969); every other character — in particular uppercase Greek letters
(913-937) and final sigma ς (962) — yields the `.get` default 0. -/
def greek_map (c : Char) : Nat :=
  if c.toNat = 945 then 1
  else if c.toNat = 946 then 2
  else if c.toNat = 947 then 3
  else if c.toNat = 948 then 4
  else if c.toNat = 949 then 5
  else if c.toNat = 987 then 6
  else if c.toNat = 950 then 7
  else if c.toNat = 951 then 8
  else if c.toNat = 952 then 9
  else if c.toNat = 953 then 10
  else if c.toNat = 954 then 20
  else if c.toNat = 955 then 30
  else if c.toNat = 956 then 40
  else if c.toNat = 957 then 50
  else if c.toNat = 958 then 60
  else if c.toNat = 959 then 70
  else if c.toNat = 960 then 80
  else if c.toNat = 985 then 90
  else if c.toNat = 961 then 100
  else if c.toNat = 963 then 200
  else if c.toNat = 964 then 300
  else if c.toNat = 965 then 400
  else if c.toNat = 966 then 500
  else if c.toNat = 967 then 600
  else if c.toNat = 968 then 700
  else if c.toNat = 969 then 800
  else 0

/-- Model of Python `unicodedata.normalize('NFKD', ·)` acting on one code
point, from the Unicode character database: é (U+00E9, 233) has canonical
decomposition e (U+0065) + combining acute (U+0301); the horizontal
ellipsis … (U+2026, 8230) has compatibility decomposition to three full
stops (U+002E U+002E U+002E); every other code point used in this
development is NFKD-inert and decomposes to itself. -/
def nfkdChar (c : Char) : List Char :=
  if c.toNat = 233 then [Char.ofNat 101, Char.ofNat 769]
  else if c.toNat = 8230 then [Char.ofNat 46, Char.ofNat 46, Char.ofNat 46]
  else [c]

/-- Model of `unicodedata.combining(c) != 0`: a code point is a combining
mark iff it lies in the Combining Diacritical Marks block U+0300-U+036F
(768-879), the only combining marks reachable through `nfkdChar` or used
in this development. -/
def combining (c : Char) : Bool :=
  decide (768 ≤ c.toNat ∧ c.toNat ≤ 879)

/-- Embedding of `normalize_text`: NFKD-decompose the text (modelled per
code point by `nfkdChar`), drop every combining mark, concatenate the rest
in order. -/
def normalize_text (s : String) : String :=
  String.mk (((s.data.map nfkdChar).flatten).filter (fun c => !combining c))

/-- Base-10 digit sum, embedding the Python expression
`sum(int(d) for d in str(n))` used inside `digital_root`. -/
def digitSum (n : Nat) : Nat :=
  if h : n < 10 then n else digitSum (n / 10) + n % 10
termination_by n
decreasing_by
  exact Nat.div_lt_self (by omega) (by omega)

/-- Embedding of `digital_root`: `while n > 9: n = sum(int(d) for d in str(n))`,
then return `n`. -/
def digital_root (n : Nat) : Nat :=
  if h : n ≤ 9 then n else digital_root (digitSum n)
termination_by n
decreasing_by
  have hle : ∀ m, digitSum m ≤ m := by
    intro m
    induction m using Nat.strong_induction_on with
    | _ m ih =>
      rw [digitSum]
      split
      · exact Nat.le_refl m
      · next hm =>
        have h1 : digitSum (m / 10) ≤ m / 10 :=
          ih (m / 10) (Nat.div_lt_self (by omega) (by omega))
        omega
  have h1 : digitSum (n / 10) ≤ n / 10 := hle (n / 10)
  rw [digitSum]
  split
  · omega
  · omega

/-- Embedding of the inner loop of `prime_factor_signature`
(`while temp_n % d == 0: factors[d] += 1; temp_n //= d`): returns the
multiplicity of `d` accumulated and the reduced cofactor.  The guards
`1 < d` and `0 < n` mirror the invariants of every reachable call (the
outer loop only calls it with `d ≥ 2` and a positive cofactor) and make
the recursion well-founded. -/
def divideOut (d n : Nat) : Nat × Nat :=
  if h : 1 < d ∧ n % d = 0 ∧ 0 < n then
    ((divideOut d (n / d)).1 + 1, (divideOut d (n / d)).2)
  else (0, n)
termination_by n
decreasing_by
  exact Nat.div_lt_self h.2.2 h.1

/-- Embedding of the outer loop of `prime_factor_signature`: at the top of
each iteration the loop guard `temp_n > 1` is checked; then `d` is divided
out, `d` is incremented, and `if d * d > temp_n and temp_n > 1` the
remaining cofactor is recorded with multiplicity 1 and the loop breaks;
otherwise the loop continues.  `facs` is the dictionary built so far, as an
association list in insertion order. -/
def factorLoop (d temp : Nat) (facs : List (Nat × Nat)) : List (Nat × Nat) :=
  if h1 : temp ≤ 1 then facs
  else
    if h2 : (d + 1) * (d + 1) > (divideOut d temp).2 ∧ 1 < (divideOut d temp).2 then
      (if (divideOut d temp).1 = 0 then facs
       else facs ++ [(d, (divideOut d temp).1)]) ++ [((divideOut d temp).2, 1)]
    else
      factorLoop (d + 1) (divideOut d temp).2
        (if (divideOut d temp).1 = 0 then facs
         else facs ++ [(d, (divideOut d temp).1)])
termination_by 2 * temp + (temp - d)
decreasing_by
  have hle : ∀ a b, (divideOut a b).2 ≤ b := by
    intro a b
    induction b using Nat.strong_induction_on with
    | _ b ih =>
      rw [divideOut]
      split
      · next hg =>
        have h3 : (divideOut a (b / a)).2 ≤ b / a :=
          ih (b / a) (Nat.div_lt_self hg.2.2 hg.1)
        have h4 : b / a ≤ b := Nat.div_le_self b a
        simpa using le_trans h3 h4
      · exact Nat.le_refl b
  rcases Nat.eq_zero_or_pos (divideOut d temp).1 with hk | hk
  · have heq : (divideOut d temp).2 = temp := by
      by_cases hg : 1 < d ∧ temp % d = 0 ∧ 0 < temp
      · rw [divideOut] at hk
        simp [hg] at hk
      · rw [divideOut, dif_neg hg]
    have hsq : (d + 1) * (d + 1) ≤ temp := by
      rcases Nat.lt_or_ge (divideOut d temp).2 ((d + 1) * (d + 1)) with hlt | hge
      · exact absurd ⟨hlt, by omega⟩ h2
      · omega
    have hd1 : d + 1 ≤ (d + 1) * (d + 1) := Nat.le_mul_of_pos_left _ (by omega)
    omega
  · have htwo : 2 * (divideOut d temp).2 ≤ temp := by
      by_cases hg : 1 < d ∧ temp % d = 0 ∧ 0 < temp
      · have h3 : (divideOut d (temp / d)).2 ≤ temp / d := hle d (temp / d)
        have h4 : d * (temp / d) ≤ temp := Nat.mul_div_le temp d
        have h5 : 2 * (temp / d) ≤ d * (temp / d) := Nat.mul_le_mul_right _ hg.1
        rw [divideOut, dif_pos hg]
        show 2 * (divideOut d (temp / d)).2 ≤ temp
        omega
      · rw [divideOut, dif_neg hg] at hk
        simp at hk
    omega

/-- Embedding of `prime_factor_signature`: the special cases for 0 and 1,
then trial division starting at `d = 2` with an empty dictionary. -/
def prime_factor_signature (n : Nat) : List (Nat × Nat) :=
  if n = 0 then [(0, 1)]
  else if n = 1 then [(1, 1)]
  else factorLoop 2 n []

/-- Product of `factor ^ multiplicity` over a signature, the quantity the
spec requires to reconstruct `n`. -/
def sigProd (l : List (Nat × Nat)) : Nat :=
  (l.map fun pk => pk.1 ^ pk.2).prod

/-- The summation `sum(map.get(ch, 0) for ch in text_norm)` for one
character map over one string. -/
def mapSum (f : Char → Nat) (s : String) : Nat :=
  (s.data.map f).sum

/-- The output record of `numerology_vector`, with the field names of the
Python dictionary it returns. -/
structure NumerologyVector where
  text_input : String
  pythagorean_sum : Nat
  hebrew_gematria : Nat
  greek_isopsephy : Nat
  digital_root : Nat
  prime_signature : List (Nat × Nat)
  deriving DecidableEq

/-- Embedding of `numerology_vector`: normalize the text, take the three
map sums over the normalized text, the digital root of the Pythagorean sum
(`digital_root(pyth) if pyth > 0 else 0`), and its prime signature. -/
def numerology_vector (text : String) : NumerologyVector :=
  let text_norm := normalize_text text
  let pyth := mapSum pythagorean_map text_norm
  let heb := mapSum hebrew_map text_norm
  let grk := mapSum greek_map text_norm
  let root := if 0 < pyth then digital_root pyth else 0
  { text_input := text
    pythagorean_sum := pyth
    hebrew_gematria := heb
    greek_isopsephy := grk
    digital_root := root
    prime_signature := prime_factor_signature pyth }

theorem digitSum_small (n : Nat) (h : n < 10) : digitSum n = n := by
  rw [digitSum]
  simp [h]

theorem digitSum_step (n : Nat) (h : ¬ n < 10) :
    digitSum n = digitSum (n / 10) + n % 10 := by
  rw [digitSum]
  simp [h]

theorem digitSum_le (n : Nat) : digitSum n ≤ n := by
  induction n using Nat.strong_induction_on with
  | _ n ih =>
    by_cases h : n < 10
    · rw [digitSum_small n h]
    · rw [digitSum_step n h]
      have h1 : digitSum (n / 10) ≤ n / 10 :=
        ih (n / 10) (Nat.div_lt_self (by omega) (by omega))
      omega

theorem digitSum_lt_self (n : Nat) (h : 9 < n) : digitSum n < n := by
  rw [digitSum_step n (by omega)]
  have h1 : digitSum (n / 10) ≤ n / 10 := digitSum_le (n / 10)
  omega

theorem digitSum_pos (n : Nat) (h : 0 < n) : 0 < digitSum n := by
  induction n using Nat.strong_induction_on with
  | _ n ih =>
    by_cases h10 : n < 10
    · rw [digitSum_small n h10]; exact h
    · rw [digitSum_step n h10]
      have h1 : 0 < digitSum (n / 10) :=
        ih (n / 10) (Nat.div_lt_self (by omega) (by omega)) (by omega)
      omega

theorem digitSum_mod_nine (n : Nat) : digitSum n % 9 = n % 9 := by
  induction n using Nat.strong_induction_on with
  | _ n ih =>
    by_cases h10 : n < 10
    · rw [digitSum_small n h10]
    · rw [digitSum_step n h10]
      have h1 : digitSum (n / 10) % 9 = (n / 10) % 9 :=
        ih (n / 10) (Nat.div_lt_self (by omega) (by omega))
      omega

theorem digital_root_of_le (n : Nat) (h : n ≤ 9) : digital_root n = n := by
  rw [digital_root]
  simp [h]

theorem digital_root_step (n : Nat) (h : 9 < n) :
    digital_root n = digital_root (digitSum n) := by
  rw [digital_root]
  simp [Nat.not_le.mpr h]

theorem digital_root_le_nine (n : Nat) : digital_root n ≤ 9 := by
  induction n using Nat.strong_induction_on with
  | _ n ih =>
    by_cases h : n ≤ 9
    · rw [digital_root_of_le n h]; exact h
    · rw [digital_root_step n (by omega)]
      exact ih (digitSum n) (digitSum_lt_self n (by omega))

theorem digital_root_mod_nine (n : Nat) : digital_root n % 9 = n % 9 := by
  induction n using Nat.strong_induction_on with
  | _ n ih =>
    by_cases h : n ≤ 9
    · rw [digital_root_of_le n h]
    · rw [digital_root_step n (by omega)]
      have h1 := ih (digitSum n) (digitSum_lt_self n (by omega))
      have h2 := digitSum_mod_nine n
      omega

theorem digital_root_pos (n : Nat) (h : 0 < n) : 0 < digital_root n := by
  induction n using Nat.strong_induction_on with
  | _ n ih =>
    by_cases h9 : n ≤ 9
    · rw [digital_root_of_le n h9]; exact h
    · rw [digital_root_step n (by omega)]
      exact ih (digitSum n) (digitSum_lt_self n (by omega)) (digitSum_pos n h)

theorem divideOut_go (d n : Nat) (h : 1 < d ∧ n % d = 0 ∧ 0 < n) :
    divideOut d n = ((divideOut d (n / d)).1 + 1, (divideOut d (n / d)).2) := by
  rw [divideOut]
  simp [h]

theorem divideOut_stop (d n : Nat) (h : ¬ (1 < d ∧ n % d = 0 ∧ 0 < n)) :
    divideOut d n = (0, n) := by
  rw [divideOut]
  simp only [h, dite_false]

theorem divideOut_snd_le (d n : Nat) : (divideOut d n).2 ≤ n := by
  induction n using Nat.strong_induction_on with
  | _ n ih =>
    by_cases h : 1 < d ∧ n % d = 0 ∧ 0 < n
    · rw [divideOut_go d n h]
      have h1 : (divideOut d (n / d)).2 ≤ n / d :=
        ih (n / d) (Nat.div_lt_self h.2.2 h.1)
      have h2 : n / d ≤ n := Nat.div_le_self n d
      omega
    · rw [divideOut_stop d n h]

theorem divideOut_fst_zero (d n : Nat) (h : (divideOut d n).1 = 0) :
    (divideOut d n).2 = n := by
  by_cases hg : 1 < d ∧ n % d = 0 ∧ 0 < n
  · rw [divideOut_go d n hg] at h
    simp at h
  · rw [divideOut_stop d n hg]

theorem divideOut_of_fst_pos (d n : Nat) (h : 0 < (divideOut d n).1) :
    1 < d ∧ 0 < n ∧ 2 * (divideOut d n).2 ≤ n := by
  by_cases hg : 1 < d ∧ n % d = 0 ∧ 0 < n
  · refine ⟨hg.1, hg.2.2, ?_⟩
    rw [divideOut_go d n hg]
    have h1 : (divideOut d (n / d)).2 ≤ n / d := divideOut_snd_le d (n / d)
    have h3 : d * (n / d) ≤ n := Nat.mul_div_le n d
    have h4 : 2 * (n / d) ≤ d * (n / d) := Nat.mul_le_mul_right _ hg.1
    omega
  · rw [divideOut_stop d n hg] at h
    simp at h

theorem divideOut_spec (d n : Nat) (hd : 1 < d) (hn : 0 < n) :
    n = d ^ (divideOut d n).1 * (divideOut d n).2 ∧ ¬ d ∣ (divideOut d n).2 := by
  induction n using Nat.strong_induction_on with
  | _ n ih =>
    by_cases h : n % d = 0
    · have hg : 1 < d ∧ n % d = 0 ∧ 0 < n := ⟨hd, h, hn⟩
      have hdvd : d ∣ n := Nat.dvd_of_mod_eq_zero h
      have hq : 0 < n / d := Nat.div_pos (Nat.le_of_dvd hn hdvd) (by omega)
      have hlt : n / d < n := Nat.div_lt_self hn hd
      obtain ⟨ih1, ih2⟩ := ih (n / d) hlt hq
      rw [divideOut_go d n hg]
      constructor
      · have hmul : d * (n / d) = n := Nat.mul_div_cancel' hdvd
        calc n = d * (n / d) := hmul.symm
          _ = d * (d ^ (divideOut d (n / d)).1 * (divideOut d (n / d)).2) := by
              rw [← ih1]
          _ = d ^ ((divideOut d (n / d)).1 + 1) * (divideOut d (n / d)).2 := by
              ring
      · exact ih2
    · have hg : ¬ (1 < d ∧ n % d = 0 ∧ 0 < n) := by
        intro hc; exact h hc.2.1
      rw [divideOut_stop d n hg]
      constructor
      · simp
      · intro hc
        exact h (Nat.mod_eq_zero_of_dvd hc)

theorem factorLoop_stop (d temp : Nat) (facs : List (Nat × Nat)) (h : temp ≤ 1) :
    factorLoop d temp facs = facs := by
  rw [factorLoop]
  simp [h]

theorem factorLoop_exit (d temp : Nat) (facs : List (Nat × Nat)) (h1 : ¬ temp ≤ 1)
    (h2 : (d + 1) * (d + 1) > (divideOut d temp).2 ∧ 1 < (divideOut d temp).2) :
    factorLoop d temp facs =
      (if (divideOut d temp).1 = 0 then facs
       else facs ++ [(d, (divideOut d temp).1)]) ++ [((divideOut d temp).2, 1)] := by
  rw [factorLoop]
  simp [h1, h2]

theorem factorLoop_cont (d temp : Nat) (facs : List (Nat × Nat)) (h1 : ¬ temp ≤ 1)
    (h2 : ¬ ((d + 1) * (d + 1) > (divideOut d temp).2 ∧ 1 < (divideOut d temp).2)) :
    factorLoop d temp facs =
      factorLoop (d + 1) (divideOut d temp).2
        (if (divideOut d temp).1 = 0 then facs
         else facs ++ [(d, (divideOut d temp).1)]) := by
  rw [factorLoop]
  simp only [h1, dite_false, h2]

theorem sigProd_append (a b : List (Nat × Nat)) :
    sigProd (a ++ b) = sigProd a * sigProd b := by
  simp [sigProd]

/-- Main invariant of the trial-division loop: called with `d ≥ 2`, a
positive cofactor `temp` having no divisor in `[2, d)`, and any
accumulator, `factorLoop` appends a list of prime/multiplicity pairs whose
product of powers is exactly `temp`.  `N` bounds the loop measure. -/
theorem factorLoop_spec (N : Nat) : ∀ d temp facs,
    2 * temp + (temp - d) ≤ N → 2 ≤ d → 1 ≤ temp →
    (∀ m, 2 ≤ m → m < d → ¬ m ∣ temp) →
    ∃ L, factorLoop d temp facs = facs ++ L ∧
      (∀ pk ∈ L, Nat.Prime pk.1 ∧ 0 < pk.2) ∧ sigProd L = temp := by
  induction N with
  | zero =>
    intro d temp facs hN hd htemp hinv
    omega
  | succ N ih =>
    intro d temp facs hN hd htemp hinv
    by_cases h1 : temp ≤ 1
    · refine ⟨[], ?_, by simp, ?_⟩
      · rw [factorLoop_stop d temp facs h1]
        simp
      · have : temp = 1 := by omega
        simp [sigProd, this]
    · have htemp2 : 2 ≤ temp := by omega
      have hspec := divideOut_spec d temp (by omega) (by omega)
      have ht2pos : 0 < (divideOut d temp).2 := by
        rcases Nat.eq_zero_or_pos (divideOut d temp).2 with h0 | hp
        · rw [h0, Nat.mul_zero] at hspec
          omega
        · exact hp
      have ht2dvd : (divideOut d temp).2 ∣ temp := by
        refine ⟨d ^ (divideOut d temp).1, ?_⟩
        conv_lhs => rw [hspec.1]
        ring
      have hinv2 : ∀ m, 2 ≤ m → m < d + 1 → ¬ m ∣ (divideOut d temp).2 := by
        intro m hm2 hmd hdvd
        rcases Nat.lt_or_ge m d with hlt | hge
        · exact hinv m hm2 hlt (hdvd.trans ht2dvd)
        · have hmeq : m = d := by omega
          subst hmeq
          exact hspec.2 hdvd
      have hprime_d : 0 < (divideOut d temp).1 → Nat.Prime d := by
        intro hkpos
        have hdvd_temp : d ∣ temp := by
          rw [hspec.1]
          exact Dvd.dvd.mul_right (dvd_pow_self d (by omega)) _
        rw [Nat.prime_def_lt]
        refine ⟨by omega, ?_⟩
        intro m hmd hmdvd
        by_contra hm1
        have hm0 : m ≠ 0 := by
          rintro rfl
          rw [zero_dvd_iff] at hmdvd
          omega
        have hm2 : 2 ≤ m := by omega
        exact hinv m hm2 hmd (hmdvd.trans hdvd_temp)
      have hfacs : ∀ (facs : List (Nat × Nat)),
          (if (divideOut d temp).1 = 0 then facs
           else facs ++ [(d, (divideOut d temp).1)]) =
          facs ++ (if (divideOut d temp).1 = 0 then []
                   else [(d, (divideOut d temp).1)]) := by
        intro facs
        by_cases h : (divideOut d temp).1 = 0 <;> simp [h]
      have hpre_props : ∀ pk ∈ (if (divideOut d temp).1 = 0 then ([] : List (Nat × Nat))
          else [(d, (divideOut d temp).1)]), Nat.Prime pk.1 ∧ 0 < pk.2 := by
        by_cases h : (divideOut d temp).1 = 0
        · simp [h]
        · simp only [h, if_false]
          intro pk hpk
          simp at hpk
          subst hpk
          exact ⟨hprime_d (by omega), by omega⟩
      have hpre_prod : sigProd (if (divideOut d temp).1 = 0 then []
          else [(d, (divideOut d temp).1)]) * (divideOut d temp).2 = temp := by
        conv_rhs => rw [hspec.1]
        by_cases h : (divideOut d temp).1 = 0
        · rw [h]
          simp [sigProd]
        · simp [h, sigProd]
      by_cases h2 : (d + 1) * (d + 1) > (divideOut d temp).2 ∧ 1 < (divideOut d temp).2
      · have ht2prime : Nat.Prime (divideOut d temp).2 := by
          rw [Nat.prime_def_lt]
          refine ⟨h2.2, ?_⟩
          intro m hmlt hmdvd
          by_contra hm1
          have hm0 : m ≠ 0 := by
            rintro rfl
            rw [zero_dvd_iff] at hmdvd
            omega
          have hm2 : 2 ≤ m := by omega
          have hmged : d + 1 ≤ m := by
            by_contra hcon
            exact hinv2 m hm2 (by omega) hmdvd
          obtain ⟨c, hc⟩ := hmdvd
          have hcpos : 0 < c := by
            rcases Nat.eq_zero_or_pos c with rfl | hp
            · rw [hc] at ht2pos
              simp at ht2pos
            · exact hp
          have hc1 : c ≠ 1 := by
            rintro rfl
            rw [Nat.mul_one] at hc
            omega
          have hcdvd : c ∣ (divideOut d temp).2 := ⟨m, by rw [hc]; ring⟩
          have hcged : d + 1 ≤ c := by
            by_contra hcon
            exact hinv2 c (by omega) (by omega) hcdvd
          have hbig : (d + 1) * (d + 1) ≤ m * c := Nat.mul_le_mul hmged hcged
          rw [← hc] at hbig
          omega
        refine ⟨(if (divideOut d temp).1 = 0 then []
            else [(d, (divideOut d temp).1)]) ++ [((divideOut d temp).2, 1)], ?_, ?_, ?_⟩
        · rw [factorLoop_exit d temp facs h1 h2, hfacs, List.append_assoc]
        · intro pk hpk
          rw [List.mem_append] at hpk
          rcases hpk with hpk | hpk
          · exact hpre_props pk hpk
          · simp at hpk
            subst hpk
            exact ⟨ht2prime, by omega⟩
        · rw [sigProd_append]
          simp only [sigProd, List.map_cons, List.map_nil, List.prod_cons, List.prod_nil,
            pow_one, mul_one]
          exact hpre_prod
      · have hmeas : 2 * (divideOut d temp).2 + ((divideOut d temp).2 - (d + 1)) ≤ N := by
          rcases Nat.eq_zero_or_pos (divideOut d temp).1 with h0 | hkpos
          · have heq : (divideOut d temp).2 = temp := divideOut_fst_zero d temp h0
            have hsq : (d + 1) * (d + 1) ≤ (divideOut d temp).2 := by
              rcases Nat.lt_or_ge (divideOut d temp).2 ((d + 1) * (d + 1)) with hlt | hge
              · exact absurd ⟨hlt, by omega⟩ h2
              · omega
            have hd1 : d + 1 ≤ (d + 1) * (d + 1) := Nat.le_mul_of_pos_left _ (by omega)
            omega
          · have h3 := divideOut_of_fst_pos d temp hkpos
            omega
        obtain ⟨L, hL1, hL2, hL3⟩ := ih (d + 1) (divideOut d temp).2
          (facs ++ (if (divideOut d temp).1 = 0 then []
                    else [(d, (divideOut d temp).1)]))
          hmeas (by omega) (by omega) hinv2
        refine ⟨(if (divideOut d temp).1 = 0 then []
            else [(d, (divideOut d temp).1)]) ++ L, ?_, ?_, ?_⟩
        · rw [factorLoop_cont d temp facs h1 h2, hfacs, hL1, List.append_assoc]
        · intro pk hpk
          rw [List.mem_append] at hpk
          rcases hpk with hpk | hpk
          · exact hpre_props pk hpk
          · exact hL2 pk hpk
        · rw [sigProd_append, hL3]
          exact hpre_prod

/-- Claim C1: `prime_factor_signature 0 = [(0,1)]` and
`prime_factor_signature 1 = [(1,1)]`; for every `n ≥ 2` the returned
signature has only prime keys with positive multiplicities, and the
product of `factor ^ multiplicity` over its entries equals `n`. -/
theorem claim_C1_prime_factor_signature :
    prime_factor_signature 0 = [(0, 1)] ∧ prime_factor_signature 1 = [(1, 1)] ∧
    ∀ n, 2 ≤ n →
      (∀ pk ∈ prime_factor_signature n, Nat.Prime pk.1 ∧ 0 < pk.2) ∧
      sigProd (prime_factor_signature n) = n := by
  refine ⟨rfl, rfl, ?_⟩
  intro n hn
  obtain ⟨L, hL1, hL2, hL3⟩ :=
    factorLoop_spec (3 * n) 2 n [] (by omega) (by omega) (by omega)
      (by intro m hm2 hm3 _; omega)
  have hpfs : prime_factor_signature n = factorLoop 2 n [] := by
    unfold prime_factor_signature
    rw [if_neg (by omega), if_neg (by omega)]
  rw [hpfs, hL1]
  simp only [List.nil_append]
  exact ⟨hL2, hL3⟩

/-- Witness for claim C1 at the concrete input 12 from the spec. -/
theorem claim_C1_witness : sigProd (prime_factor_signature 12) = 12 :=
  (claim_C1_prime_factor_signature.2.2 12 (by norm_num)).2

/-- Claim C5: `digital_root` of 0, 9, 38 and 123456789 are 0, 9, 2 and 9,
and every digital root lies in `[0, 9]`. -/
theorem claim_C5_digital_root :
    digital_root 0 = 0 ∧ digital_root 9 = 9 ∧ digital_root 38 = 2 ∧
    digital_root 123456789 = 9 ∧ ∀ n, digital_root n ≤ 9 := by
  refine ⟨?_, ?_, ?_, ?_, digital_root_le_nine⟩ <;>
    norm_num [digital_root_step, digital_root_of_le, digitSum_step, digitSum_small]

/-- Claim C6: the reduction loop of `digital_root` terminates because each
iteration strictly decreases `n` whenever `n > 9`: the digit sum of a
multi-digit number is strictly smaller than the number, and the iteration
step is exactly `digital_root n = digital_root (digitSum n)`. -/
theorem claim_C6_termination :
    ∀ n, 9 < n → digitSum n < n ∧ digital_root n = digital_root (digitSum n) := by
  intro n h
  exact ⟨digitSum_lt_self n h, digital_root_step n h⟩

/-- Witness for claim C6 at the concrete input 38. -/
theorem claim_C6_witness :
    digitSum 38 < 38 ∧ digital_root 38 = digital_root (digitSum 38) :=
  claim_C6_termination 38 (by norm_num)

/-- Claim C10: for `n ≥ 1` the digital root is `1 + (n - 1) % 9` (hence
congruent to `n` mod 9 and in `[1, 9]`), and the digital root is 0 exactly
for input 0. -/
theorem claim_C10_digital_root_formula :
    (∀ n, 1 ≤ n → digital_root n = 1 + (n - 1) % 9) ∧
    (∀ n, digital_root n = 0 ↔ n = 0) := by
  constructor
  · intro n hn
    have h1 := digital_root_le_nine n
    have h2 := digital_root_mod_nine n
    have h3 := digital_root_pos n hn
    omega
  · intro n
    constructor
    · intro h
      by_contra hc
      have := digital_root_pos n (by omega)
      omega
    · rintro rfl
      exact digital_root_of_le 0 (by omega)

/-- Witness for claim C10 at the concrete input 10. -/
theorem claim_C10_witness : digital_root 10 = 1 + (10 - 1) % 9 :=
  claim_C10_digital_root_formula.1 10 (by norm_num)

theorem normalize_data (s : String) :
    (normalize_text s).data =
      ((s.data.map nfkdChar).flatten).filter (fun c => !combining c) := rfl

/-- Claim C2, amended: for every input string `normalize_text` returns a
string with no combining-mark code points whose code points are an in-order
selection (sublist) of the NFKD decomposition of the input, with length at
most the NFKD decomposition's length.  (The original claim bounded the
length by the input's own length, which fails: see the counterexample.) -/
theorem claim_C2_normalize_text : ∀ s : String,
    (∀ c ∈ (normalize_text s).data, combining c = false) ∧
    List.Sublist (normalize_text s).data ((s.data.map nfkdChar).flatten) ∧
    (normalize_text s).data.length ≤ ((s.data.map nfkdChar).flatten).length := by
  intro s
  rw [normalize_data]
  refine ⟨?_, List.filter_sublist _, List.length_filter_le _ _⟩
  intro c hc
  have h := List.of_mem_filter hc
  simpa using h

/-- Counterexample for claim C2 as stated: the input "…" has one code
point, but NFKD expands it to three full stops, none of which is a
combining mark, so the normalized string is strictly longer than the
input. -/
theorem claim_C2_counterexample :
    "…".data.length < (normalize_text "…").data.length := by decide

/-- Witness instantiating claim C2 at the concrete input "é". -/
theorem claim_C2_witness :
    List.Sublist (normalize_text "é").data (("é".data.map nfkdChar).flatten) :=
  (claim_C2_normalize_text "é").2.1

/-- Claim C3: scoring the empty string yields all three sums 0, digital
root 0, and prime signature `[(0, 1)]`, with the empty text preserved. -/
theorem claim_C3_empty_string :
    numerology_vector "" = ⟨"", 0, 0, 0, 0, [(0, 1)]⟩ := by decide

/-- Claim C8: `numerology_vector` is total by construction (it is a plain
Lean function on all of `String`, with no error or partial result), and the
`text_input` field of its output is the raw input string verbatim. -/
theorem claim_C8_total_verbatim :
    ∀ s : String, (numerology_vector s).text_input = s := by
  intro s
  rfl

/-- Witness instantiating claim C8 at a concrete input whose normalized
form differs from the raw input. -/
theorem claim_C8_witness : (numerology_vector "é").text_input = "é" :=
  claim_C8_total_verbatim "é"

/-- Claim C4: every Latin letter, uppercase or lowercase alike, gets weight
`(position mod 9) + 1` (A/a=65/97 through Z/z=90/122); the named sample
values hold; and every character outside the two Latin ranges gets the
default weight 0. -/
theorem claim_C4_pythagorean_map :
    (∀ i, i < 26 → pythagorean_map (Char.ofNat (65 + i)) = i % 9 + 1 ∧
      pythagorean_map (Char.ofNat (97 + i)) = i % 9 + 1) ∧
    (pythagorean_map 'A' = 1 ∧ pythagorean_map 'a' = 1 ∧
     pythagorean_map 'I' = 9 ∧ pythagorean_map 'i' = 9 ∧
     pythagorean_map 'J' = 1 ∧ pythagorean_map 'j' = 1 ∧
     pythagorean_map 'Z' = 8 ∧ pythagorean_map 'z' = 8) ∧
    ∀ c : Char, ¬ (65 ≤ c.toNat ∧ c.toNat ≤ 90) → ¬ (97 ≤ c.toNat ∧ c.toNat ≤ 122) →
      pythagorean_map c = 0 := by
  refine ⟨by decide, by decide, ?_⟩
  intro c h1 h2
  unfold pythagorean_map
  rw [if_neg h1, if_neg h2]

/-- Witness for claim C4 at position 9 (J/j) and at the space character. -/
theorem claim_C4_witness :
    pythagorean_map (Char.ofNat (65 + 9)) = 9 % 9 + 1 ∧
    pythagorean_map (Char.ofNat (97 + 9)) = 9 % 9 + 1 ∧
    pythagorean_map ' ' = 0 :=
  ⟨(claim_C4_pythagorean_map.1 9 (by norm_num)).1,
   (claim_C4_pythagorean_map.1 9 (by norm_num)).2,
   claim_C4_pythagorean_map.2.2 ' ' (by decide) (by decide)⟩

theorem normalize_text_perm {s t : String} (h : s.data.Perm t.data) :
    (normalize_text s).data.Perm (normalize_text t).data := by
  rw [normalize_data, normalize_data]
  exact List.Perm.filter _ (List.Perm.flatten (List.Perm.map nfkdChar h))

theorem mapSum_normalize_perm (f : Char → Nat) {s t : String}
    (h : s.data.Perm t.data) :
    mapSum f (normalize_text s) = mapSum f (normalize_text t) := by
  unfold mapSum
  exact List.Perm.sum_eq (List.Perm.map f (normalize_text_perm h))

/-- Claim C7: permuting the code points of the input preserves all five
derived fields of the numerology vector (the three sums, the digital root,
and the prime signature); only the preserved `text_input` may differ. -/
theorem claim_C7_permutation_invariance : ∀ s t : String, s.data.Perm t.data →
    (numerology_vector s).pythagorean_sum = (numerology_vector t).pythagorean_sum ∧
    (numerology_vector s).hebrew_gematria = (numerology_vector t).hebrew_gematria ∧
    (numerology_vector s).greek_isopsephy = (numerology_vector t).greek_isopsephy ∧
    (numerology_vector s).digital_root = (numerology_vector t).digital_root ∧
    (numerology_vector s).prime_signature = (numerology_vector t).prime_signature := by
  intro s t h
  have hp := mapSum_normalize_perm pythagorean_map h
  have hh := mapSum_normalize_perm hebrew_map h
  have hg := mapSum_normalize_perm greek_map h
  refine ⟨hp, hh, hg, ?_, ?_⟩
  · show (if 0 < mapSum pythagorean_map (normalize_text s) then
        digital_root (mapSum pythagorean_map (normalize_text s)) else 0) =
      (if 0 < mapSum pythagorean_map (normalize_text t) then
        digital_root (mapSum pythagorean_map (normalize_text t)) else 0)
    rw [hp]
  · show prime_factor_signature (mapSum pythagorean_map (normalize_text s)) =
      prime_factor_signature (mapSum pythagorean_map (normalize_text t))
    rw [hp]

/-- Witness for claim C7 on the concrete permutation "ab" / "ba". -/
theorem claim_C7_witness :
    (numerology_vector "ab").pythagorean_sum = (numerology_vector "ba").pythagorean_sum ∧
    (numerology_vector "ab").hebrew_gematria = (numerology_vector "ba").hebrew_gematria ∧
    (numerology_vector "ab").greek_isopsephy = (numerology_vector "ba").greek_isopsephy ∧
    (numerology_vector "ab").digital_root = (numerology_vector "ba").digital_root ∧
    (numerology_vector "ab").prime_signature = (numerology_vector "ba").prime_signature :=
  claim_C7_permutation_invariance "ab" "ba" (by decide)

theorem greek_map_zero_of_range (c : Char) (h1 : 913 ≤ c.toNat)
    (h2 : c.toNat ≤ 937) : greek_map c = 0 := by
  unfold greek_map
  rw [if_neg (show ¬ c.toNat = 945 by omega), if_neg (show ¬ c.toNat = 946 by omega),
    if_neg (show ¬ c.toNat = 947 by omega), if_neg (show ¬ c.toNat = 948 by omega),
    if_neg (show ¬ c.toNat = 949 by omega), if_neg (show ¬ c.toNat = 987 by omega),
    if_neg (show ¬ c.toNat = 950 by omega), if_neg (show ¬ c.toNat = 951 by omega),
    if_neg (show ¬ c.toNat = 952 by omega), if_neg (show ¬ c.toNat = 953 by omega),
    if_neg (show ¬ c.toNat = 954 by omega), if_neg (show ¬ c.toNat = 955 by omega),
    if_neg (show ¬ c.toNat = 956 by omega), if_neg (show ¬ c.toNat = 957 by omega),
    if_neg (show ¬ c.toNat = 958 by omega), if_neg (show ¬ c.toNat = 959 by omega),
    if_neg (show ¬ c.toNat = 960 by omega), if_neg (show ¬ c.toNat = 985 by omega),
    if_neg (show ¬ c.toNat = 961 by omega), if_neg (show ¬ c.toNat = 963 by omega),
    if_neg (show ¬ c.toNat = 964 by omega), if_neg (show ¬ c.toNat = 965 by omega),
    if_neg (show ¬ c.toNat = 966 by omega), if_neg (show ¬ c.toNat = 967 by omega),
    if_neg (show ¬ c.toNat = 968 by omega), if_neg (show ¬ c.toNat = 969 by omega)]

theorem nfkdChar_inert (c : Char) (h1 : c.toNat ≠ 233) (h2 : c.toNat ≠ 8230) :
    nfkdChar c = [c] := by
  unfold nfkdChar
  rw [if_neg h1, if_neg h2]

theorem combining_false_of_lt (c : Char) (h1 : c.toNat < 768) :
    combining c = false := by
  simp only [combining, decide_eq_false_iff_not, not_and]
  omega

theorem combining_false_of_gt (c : Char) (h1 : 879 < c.toNat) :
    combining c = false := by
  simp only [combining, decide_eq_false_iff_not, not_and]
  omega

/-- Claim C9: the Greek map contains only the listed lowercase/archaic
letterforms, so any string of uppercase Greek letters (code points
913-937) — and the final sigma ς — scores a Greek isopsephy sum of 0,
while the corresponding lowercase letters have the nonzero values
α=1, ω=800, σ=200. -/
theorem claim_C9_greek_letterforms :
    (∀ s : String, (∀ c ∈ s.data, 913 ≤ c.toNat ∧ c.toNat ≤ 937) →
      (numerology_vector s).greek_isopsephy = 0) ∧
    (numerology_vector "ΑΩ").greek_isopsephy = 0 ∧
    (numerology_vector "ς").greek_isopsephy = 0 ∧
    greek_map (Char.ofNat 945) = 1 ∧ greek_map (Char.ofNat 969) = 800 ∧
    greek_map (Char.ofNat 963) = 200 ∧ greek_map (Char.ofNat 913) = 0 ∧
    greek_map (Char.ofNat 937) = 0 ∧ greek_map (Char.ofNat 962) = 0 := by
  have key : ∀ l : List Char, (∀ c ∈ l, 913 ≤ c.toNat ∧ c.toNat ≤ 937) →
      ((((l.map nfkdChar).flatten).filter (fun c => !combining c)).map greek_map).sum = 0 := by
    intro l
    induction l with
    | nil => intro _; rfl
    | cons a l ih =>
      intro hl
      have ha := hl a (List.mem_cons_self a l)
      have hrest : ∀ c ∈ l, 913 ≤ c.toNat ∧ c.toNat ≤ 937 :=
        fun c hc => hl c (List.mem_cons_of_mem a hc)
      simp only [List.map_cons, List.flatten_cons]
      rw [nfkdChar_inert a (by omega) (by omega), List.filter_append,
        List.map_append, List.sum_append]
      have hca : combining a = false := combining_false_of_gt a (by omega)
      rw [show List.filter (fun c => !combining c) [a] = [a] from by simp [hca]]
      simp only [List.map_cons, List.map_nil, List.sum_cons, List.sum_nil]
      rw [greek_map_zero_of_range a ha.1 ha.2, ih hrest]
      rfl
  refine ⟨?_, by decide, by decide, by decide, by decide, by decide, by decide,
    by decide, by decide⟩
  intro s hs
  show mapSum greek_map (normalize_text s) = 0
  unfold mapSum
  rw [normalize_data]
  exact key s.data hs

/-- Witness instantiating the universal part of claim C9 at "ΑΩ". -/
theorem claim_C9_witness : (numerology_vector "ΑΩ").greek_isopsephy = 0 :=
  claim_C9_greek_letterforms.1 "ΑΩ" (by decide)
